import Mathlib

/-!
Shallow embedding of the translation-catalog consistency checker
(`check_translation_consistency.py`) and the required-key auditor
(`validate_import_keys.py`) of the departure-monitor repository, together
with proofs about the claims C1..C10 on the natural-language specification.

The Python scripts operate on the result of `json.load`: nested
string-keyed dictionaries whose values are dictionaries, strings, numbers,
booleans or `None` (JSON `null`).  The type `JValue` below models exactly
this universe; an object is the insertion-ordered sequence of its
`items()`.  Python's `None` and JSON `null` are, deliberately, the single
constructor `JValue.null`: that very identification is what
`get_nested_value` in the source relies on when it returns `None` both for
a failed resolution and for a resolved `null` leaf.
-/

/-- A parsed JSON-like document as the Python scripts see it.  `obj`
carries the ordered `items()` sequence of a dictionary. -/
inductive JValue where
  | str (s : String)
  | num (n : Int)
  | bool (b : Bool)
  | null
  | obj (entries : List (String × JValue))

/-- Embedding of `f"{prefix}.{key}" if prefix else key`, the dotted-path
step used by every walk in `check_translation_consistency.py`. -/
def joinKey (pre key : String) : String :=
  if pre = "" then key else pre ++ "." ++ key

/-- Splitting a character list at every occurrence of `c`, keeping empty
segments; the list-level model of Python's `str.split` with a one-character
separator (`"".split('.') == [""]`, `"a..b".split('.') == ["a","","b"]`). -/
def splitOnChar (c : Char) : List Char → List (List Char)
  | [] => [[]]
  | x :: xs =>
    match splitOnChar c xs with
    | [] => [[]]
    | r :: rs => if x = c then [] :: r :: rs else (x :: r) :: rs

/-- Embedding of `key_path.split('.')` from `validate_import_keys.py`. -/
def split_dots (s : String) : List String :=
  (splitOnChar '.' s.data).map String.mk

/-- Dictionary lookup on the `items()` sequence: the combination
`key in current` / `current[key]` used by `get_nested_value`.  A Python
dictionary never holds a key twice, so first-match lookup is exact. -/
def lookupKey : List (String × JValue) → String → Option JValue
  | [], _ => none
  | (k, v) :: rest, key => if k = key then some v else lookupKey rest key

mutual

/-- Embedding of `get_all_keys(data, prefix)` from
`check_translation_consistency.py`: every key at every depth contributes
its dotted path, and the walk recurses exactly into dictionary values. -/
def get_all_keys (data : JValue) (pre : String) : List String :=
  match data with
  | .obj entries => gak_entries entries pre
  | _ => []
termination_by structural data

/-- The `for key, value in data.items()` loop body of `get_all_keys`. -/
def gak_entries (entries : List (String × JValue)) (pre : String) : List String :=
  match entries with
  | [] => []
  | (k, v) :: rest =>
      (joinKey pre k :: get_all_keys v (joinKey pre k)) ++ gak_entries rest pre
termination_by structural entries

end

mutual

/-- Embedding of `check_duplicate_keys(data, prefix, found_keys)` from
`check_translation_consistency.py`.  The Python version threads one shared
mutable `found_keys` dictionary through the entire walk; here that state is
passed explicitly and returned, so the result is
`(duplicates, found_keys after the walk)`. -/
def check_duplicate_keys_aux (data : JValue) (pre : String) (found : List String) :
    List String × List String :=
  match data with
  | .obj entries => cdk_entries entries pre found
  | _ => ([], found)
termination_by structural data

/-- The `for key, value in data.items()` loop body of
`check_duplicate_keys`: report `current_key` when already seen, otherwise
remember it; then walk into dictionary values with the same seen-state. -/
def cdk_entries (entries : List (String × JValue)) (pre : String) (found : List String) :
    List String × List String :=
  match entries with
  | [] => ([], found)
  | (k, v) :: rest =>
      let ck := joinKey pre k
      if ck ∈ found then
        let p1 := check_duplicate_keys_aux v ck found
        let p2 := cdk_entries rest pre p1.2
        (ck :: (p1.1 ++ p2.1), p2.2)
      else
        let p1 := check_duplicate_keys_aux v ck (ck :: found)
        let p2 := cdk_entries rest pre p1.2
        (p1.1 ++ p2.1, p2.2)
termination_by structural entries

end

/-- `check_duplicate_keys(data)` with the source's default arguments
(`prefix=""`, fresh empty `found_keys`). -/
def check_duplicate_keys (data : JValue) : List String :=
  (check_duplicate_keys_aux data "" []).1

/-- Embedding of the test `value.strip() == ""` on a string value: after
stripping leading and trailing whitespace the result is empty exactly when
every character of the string is whitespace (so also for `""` itself). -/
def strip_empty (s : String) : Bool :=
  s.data.all Char.isWhitespace

mutual

/-- Embedding of the inner function `check_empty_values(data, prefix, ...)`
of `main` in `check_translation_consistency.py`: recurse into dictionary
values; record the path of a string leaf whose `strip()` is empty; ignore
every other leaf. -/
def check_empty_values (data : JValue) (pre : String) : List String :=
  match data with
  | .obj entries => cev_entries entries pre
  | _ => []
termination_by structural data

/-- The `for key, value in data.items()` loop body of `check_empty_values`. -/
def cev_entries (entries : List (String × JValue)) (pre : String) : List String :=
  match entries with
  | [] => []
  | (k, v) :: rest =>
      (match v with
       | .obj es => check_empty_values (.obj es) (joinKey pre k)
       | .str s => if strip_empty s then [joinKey pre k] else []
       | _ => []) ++ cev_entries rest pre
termination_by structural entries

end

/-- Embedding of `load_translations()` from
`check_translation_consistency.py`.  The two parameters are the outcomes of
reading-and-parsing the two catalog files; the single `try` block maps any
failure to `(None, None)`. -/
def load_translations (de en : Except String JValue) : Option JValue × Option JValue :=
  match de with
  | .error _ => (none, none)
  | .ok d =>
    match en with
    | .error _ => (none, none)
    | .ok e => (some d, some e)

/-- The findings `main` collects before its final verdict: duplicate keys
per locale, the three set-partitions of the flattened key sets, and the
empty-value findings per locale. -/
structure Report where
  de_duplicates : List String
  en_duplicates : List String
  common_keys : Finset String
  only_de : Finset String
  only_en : Finset String
  de_empty : List String
  en_empty : List String

/-- The check-running part of `main` (after a successful load):
`set(get_all_keys(...))`, `check_duplicate_keys(...)`, the set differences
and intersection, and `check_empty_values(...)` for both locales. -/
def run_checks (de_data en_data : JValue) : Report :=
  let de_keys := (get_all_keys de_data "").toFinset
  let en_keys := (get_all_keys en_data "").toFinset
  { de_duplicates := check_duplicate_keys de_data
    en_duplicates := check_duplicate_keys en_data
    common_keys := de_keys ∩ en_keys
    only_de := de_keys \ en_keys
    only_en := en_keys \ de_keys
    de_empty := check_empty_values de_data ""
    en_empty := check_empty_values en_data "" }

/-- The `issues` list `main` builds for its final verdict, in source
order; each entry is appended exactly when the corresponding finding list
or set is non-empty (Python truthiness). -/
def issues (r : Report) : List String :=
  (if r.de_duplicates ≠ [] then
    ["Deutsche Übersetzung hat " ++ toString r.de_duplicates.length ++ " doppelte Schlüssel"]
   else []) ++
  (if r.en_duplicates ≠ [] then
    ["Englische Übersetzung hat " ++ toString r.en_duplicates.length ++ " doppelte Schlüssel"]
   else []) ++
  (if r.only_de ≠ ∅ then
    [toString r.only_de.card ++ " Schlüssel nur in deutscher Übersetzung"] else []) ++
  (if r.only_en ≠ ∅ then
    [toString r.only_en.card ++ " Schlüssel nur in englischer Übersetzung"] else []) ++
  (if r.de_empty ≠ [] then
    ["Deutsche Übersetzung hat " ++ toString r.de_empty.length ++ " leere Werte"] else []) ++
  (if r.en_empty ≠ [] then
    ["Englische Übersetzung hat " ++ toString r.en_empty.length ++ " leere Werte"] else [])

/-- The aggregate verdict of `main`: "pass" exactly when the `issues`
list is empty. -/
def verdict_pass (r : Report) : Bool :=
  (issues r).isEmpty

/-- The overall behavior of `main`: if either catalog is absent after
`load_translations`, return before any check runs; otherwise run all
checks and report. -/
def main_result (de en : Except String JValue) : Option Report :=
  match load_translations de en with
  | (some d, some e) => some (run_checks d e)
  | _ => none

/-- The hardcoded `required_keys` list of `validate_import_keys.py`. -/
def required_keys : List String :=
  [ "import.options.merge_strategy_description"
  , "import.options.basic_options"
  , "import.options.basic_options_description"
  , "import.options.advanced_options_description"
  , "import.options.summary_description"
  , "import.progress.validation"
  , "import.progress.validation_description"
  , "import.progress.backup"
  , "import.progress.backup_description"
  , "import.progress.import"
  , "import.progress.import_description"
  , "import.progress.finalize"
  , "import.progress.finalize_description"
  , "import.dialog.progress_aria_label"
  , "import.card.toggle_expand"
  , "import.card.options_count"
  , "import.preview.toggle_card"
  , "import.preview.conflicts_subtitle"
  , "import.preview.no_conflicts"
  , "import.preview.stops_subtitle"
  , "import.preview.view_all"
  , "import.categories.settings"
  , "import.categories.safety"
  , "import.categories.filtering"
  , "import.categories.layout"
  , "import.categories.default"
  , "import.loading.dialog"
  , "import.loading.confirmation"
  , "import.loading.preview"
  , "import.loading.options"
  , "import.loading.component_error"
  , "import.loading.unknown_error" ]

/-- The loop body of `get_nested_value` on an already split path: descend
while the current node is a dictionary containing the next segment,
otherwise `return None`; a resolved `null` leaf and a failed resolution
both come out as `JValue.null`, exactly as both come out as `None` in
Python. -/
def get_nested_value_aux (cur : JValue) (keys : List String) : JValue :=
  match cur, keys with
  | cur, [] => cur
  | .obj entries, k :: ks =>
      (match lookupKey entries k with
       | some v => get_nested_value_aux v ks
       | none => JValue.null)
  | _, _ :: _ => JValue.null
termination_by structural keys

/-- Embedding of `get_nested_value(data, key_path)` from
`validate_import_keys.py`. -/
def get_nested_value (data : JValue) (key_path : String) : JValue :=
  get_nested_value_aux data (split_dots key_path)

/-- Python's `value is None` identity test against the `None` object. -/
def is_none : JValue → Bool
  | .null => true
  | _ => false

/-- The `for key in required_keys` loop of `check_translation_file`,
partitioning a key list into `(found_keys, missing_keys)` by the
`value is not None` test on `get_nested_value`. -/
def audit_keys (keys : List String) (data : JValue) : List String × List String :=
  match keys with
  | [] => ([], [])
  | key :: rest =>
      let p := audit_keys rest data
      if is_none (get_nested_value data key) then (p.1, key :: p.2)
      else (key :: p.1, p.2)

/-- Embedding of `check_translation_file(file_path, lang_name)` from
`validate_import_keys.py`; the parameter is the outcome of
reading-and-parsing the file.  On a load failure the source's `except`
branch returns `[], required_keys`. -/
def check_translation_file (loaded : Except String JValue) : List String × List String :=
  match loaded with
  | .ok data => audit_keys required_keys data
  | .error _ => ([], required_keys)

/-! ## Specification instruments

The following definitions are not part of the source; they are the
vocabulary in which the claims are stated: the same tree walk as
`get_all_keys` but keeping the value of the node each path names, a
resolver that (unlike `get_nested_value`) distinguishes a failed
resolution from a resolved `null`, and decidable side conditions on
catalog trees. -/

mutual

/-- The walk of `get_all_keys`, pairing every emitted dotted path with the
value of the node it was emitted for ("direct tree traversal to that
node"). -/
def paths_with_values (data : JValue) (pre : String) : List (String × JValue) :=
  match data with
  | .obj entries => pwv_entries entries pre
  | _ => []
termination_by structural data

/-- Entry-sequence part of `paths_with_values`. -/
def pwv_entries (entries : List (String × JValue)) (pre : String) : List (String × JValue) :=
  match entries with
  | [] => []
  | (k, v) :: rest =>
      ((joinKey pre k, v) :: paths_with_values v (joinKey pre k)) ++ pwv_entries rest pre
termination_by structural entries

end

/-- Level-by-level resolution of a segment list, distinguishing success
from failure: `none` exactly when some next segment is absent or the
current node is not a dictionary; `some v` when the walk reaches a node
with value `v` (possibly `null`). -/
def resolve_path (cur : JValue) (keys : List String) : Option JValue :=
  match cur, keys with
  | cur, [] => some cur
  | .obj entries, k :: ks =>
      (match lookupKey entries k with
       | some v => resolve_path v ks
       | none => none)
  | _, _ :: _ => none
termination_by structural keys

/-- One pass over a path sequence with an explicit seen-set: the
functional counterpart of the `found_keys` dictionary of
`check_duplicate_keys`, run on an already flattened sequence. -/
def dupScan (l : List String) (found : List String) : List String × List String :=
  match l with
  | [] => ([], found)
  | x :: xs =>
      if x ∈ found then
        let p := dupScan xs found
        (x :: p.1, p.2)
      else
        let p := dupScan xs (x :: found)
        (p.1, p.2)

/-- The sub-sequence of a path sequence consisting of those occurrences
whose path has already appeared earlier in the same sequence (claim C10's
description of the duplicate findings). -/
def dup_occurrences (l : List String) (earlier : List String) : List String :=
  match l with
  | [] => []
  | x :: xs => (if x ∈ earlier then [x] else []) ++ dup_occurrences xs (x :: earlier)

/-- The finding `check_empty_values` derives from one traversal entry: the
path when the node's value is a whitespace-only string, nothing
otherwise (in particular nothing for numbers, booleans, `null` and
dictionaries). -/
def emptyLeaf : String × JValue → Option String
  | (p, .str s) => if strip_empty s then some p else none
  | (_, _) => none

/-- Decidable test: the string contains no `'.'` character. -/
def dotFreeStr (s : String) : Bool :=
  decide ('.' ∉ s.data)

mutual

/-- Decidable test: no single nesting level of the tree repeats a key
(automatically true for anything `json.load` can produce, since Python
dictionaries collapse repeated keys). -/
def wf_levels (data : JValue) : Bool :=
  match data with
  | .obj entries => wfl_entries entries
  | _ => true
termination_by structural data

/-- Entry-sequence part of `wf_levels`. -/
def wfl_entries (entries : List (String × JValue)) : Bool :=
  match entries with
  | [] => true
  | (k, v) :: rest =>
      decide (k ∉ rest.map Prod.fst) && wf_levels v && wfl_entries rest
termination_by structural entries

end

mutual

/-- Decidable test: no key anywhere in the tree contains a `'.'`. -/
def dot_free (data : JValue) : Bool :=
  match data with
  | .obj entries => df_entries entries
  | _ => true
termination_by structural data

/-- Entry-sequence part of `dot_free`. -/
def df_entries (entries : List (String × JValue)) : Bool :=
  match entries with
  | [] => true
  | (k, v) :: rest => dotFreeStr k && dot_free v && df_entries rest
termination_by structural entries

end

/-- Decidable test: no top-level key is the empty string (below the root,
`joinKey` always receives a non-empty running path, so only root-level
empty keys can make two different nodes' dotted paths collapse). -/
def root_keys_nonempty (data : JValue) : Bool :=
  match data with
  | .obj entries => decide ("" ∉ entries.map Prod.fst)
  | _ => true

/-- Left-to-right dotted join of segments onto a running path, as
performed by nested `joinKey` steps along one branch of a walk. -/
def dotJoin (pre : String) (segs : List String) : String :=
  segs.foldl joinKey pre

/-- The character-list tail `".s₁.s₂…"` appended by a dotted join. -/
def dotTail : List (List Char) → List Char
  | [] => []
  | s :: rest => '.' :: (s ++ dotTail rest)

/-! ## Splitting a dotted join recovers the segments -/

theorem mk_data (s : String) : String.mk s.data = s := by
  cases s
  rfl

theorem dot_data : ("." : String).data = ['.'] := rfl

theorem splitOnChar_ne_nil (c : Char) (l : List Char) : splitOnChar c l ≠ [] := by
  cases l with
  | nil => simp [splitOnChar]
  | cons x xs =>
      rw [splitOnChar]
      cases h : splitOnChar c xs with
      | nil => simp
      | cons r rs => by_cases hx : x = c <;> simp [hx]

theorem splitOnChar_not_mem (c : Char) (a : List Char) (h : c ∉ a) :
    splitOnChar c a = [a] := by
  induction a with
  | nil => rfl
  | cons x xs ih =>
      have hx : x ≠ c := fun e => h (by rw [← e]; exact List.mem_cons_self x xs)
      have hxs : c ∉ xs := fun e => h (List.mem_cons_of_mem x e)
      rw [splitOnChar, ih hxs]
      simp [hx]

theorem splitOnChar_append (c : Char) (a rest : List Char) (h : c ∉ a) :
    splitOnChar c (a ++ c :: rest) = a :: splitOnChar c rest := by
  induction a with
  | nil =>
      rw [List.nil_append, splitOnChar]
      cases hr : splitOnChar c rest with
      | nil => exact absurd hr (splitOnChar_ne_nil c rest)
      | cons r rs => simp
  | cons x xs ih =>
      have hx : x ≠ c := fun e => h (by rw [← e]; exact List.mem_cons_self x xs)
      have hxs : c ∉ xs := fun e => h (List.mem_cons_of_mem x e)
      rw [List.cons_append, splitOnChar, ih hxs]
      simp [hx]

theorem splitOnChar_dotTail (segs : List (List Char)) (a : List Char)
    (hsegs : ∀ s ∈ segs, ('.' : Char) ∉ s) (ha : ('.' : Char) ∉ a) :
    splitOnChar '.' (a ++ dotTail segs) = a :: segs := by
  induction segs generalizing a with
  | nil =>
      rw [dotTail, List.append_nil]
      exact splitOnChar_not_mem '.' a ha
  | cons s rest ih =>
      have hs : ('.' : Char) ∉ s := hsegs s (List.mem_cons_self _ _)
      have hrest : ∀ t ∈ rest, ('.' : Char) ∉ t :=
        fun t ht => hsegs t (List.mem_cons_of_mem _ ht)
      rw [dotTail, splitOnChar_append '.' a (s ++ dotTail rest) ha, ih s hrest hs]

theorem dotJoin_data (segs : List String) (k : String) (hk : k ≠ "") :
    (dotJoin k segs).data = k.data ++ dotTail (segs.map String.data) := by
  induction segs generalizing k with
  | nil => simp [dotJoin, dotTail]
  | cons s rest ih =>
      have hjoin : joinKey k s = k ++ "." ++ s := by
        simp [joinKey, hk]
      have hk' : k ++ "." ++ s ≠ "" := by
        intro e
        have h2 := congrArg String.data e
        simp [String.data_append, dot_data] at h2
      have hstep : dotJoin k (s :: rest) = dotJoin (k ++ "." ++ s) rest := by
        simp [dotJoin, List.foldl_cons, hjoin]
      rw [hstep, ih (k ++ "." ++ s) hk']
      simp [String.data_append, dot_data, dotTail]

theorem split_dots_dotJoin (k : String) (segs : List String) (hk : k ≠ "")
    (hkdf : dotFreeStr k = true) (hsegs : ∀ s ∈ segs, dotFreeStr s = true) :
    split_dots (dotJoin k segs) = k :: segs := by
  have hkd : ('.' : Char) ∉ k.data := of_decide_eq_true hkdf
  have hmemd : ∀ t ∈ segs.map String.data, ('.' : Char) ∉ t := by
    intro t ht
    obtain ⟨s, hs, rfl⟩ := List.mem_map.mp ht
    exact of_decide_eq_true (hsegs s hs)
  rw [split_dots, dotJoin_data segs k hk,
    splitOnChar_dotTail (segs.map String.data) k.data hmemd hkd]
  have hcomp : String.mk ∘ String.data = id := funext mk_data
  simp [List.map_map, mk_data, hcomp]

/-! ## Every emitted path resolves, on well-behaved trees -/

theorem resolve_cons_ne (k k₀ : String) (v : JValue) (rest : List (String × JValue))
    (segs : List String) (hne : k ≠ k₀) :
    resolve_path (.obj ((k, v) :: rest)) (k₀ :: segs) =
      resolve_path (.obj rest) (k₀ :: segs) := by
  simp [resolve_path, lookupKey, hne]

mutual

theorem pwv_resolve (data : JValue) (pre : String)
    (hwf : wf_levels data = true) (hdf : dot_free data = true) :
    ∀ p w, (p, w) ∈ paths_with_values data pre →
      ∃ k₀ segs, p = dotJoin pre (k₀ :: segs) ∧
        (∀ s ∈ k₀ :: segs, dotFreeStr s = true) ∧
        resolve_path data (k₀ :: segs) = some w := by
  match data with
  | .obj entries =>
      intro p w hp
      rw [paths_with_values] at hp
      rw [wf_levels] at hwf
      rw [dot_free] at hdf
      obtain ⟨k₀, segs, h1, _, h3, h4⟩ := pwv_resolve_entries entries pre hwf hdf p w hp
      exact ⟨k₀, segs, h1, h3, h4⟩
  | .str s => intro p w hp; simp [paths_with_values] at hp
  | .num n => intro p w hp; simp [paths_with_values] at hp
  | .bool b => intro p w hp; simp [paths_with_values] at hp
  | .null => intro p w hp; simp [paths_with_values] at hp
termination_by structural data

theorem pwv_resolve_entries (entries : List (String × JValue)) (pre : String)
    (hwf : wfl_entries entries = true) (hdf : df_entries entries = true) :
    ∀ p w, (p, w) ∈ pwv_entries entries pre →
      ∃ k₀ segs, p = dotJoin pre (k₀ :: segs) ∧
        k₀ ∈ entries.map Prod.fst ∧
        (∀ s ∈ k₀ :: segs, dotFreeStr s = true) ∧
        resolve_path (.obj entries) (k₀ :: segs) = some w := by
  match entries with
  | [] => intro p w hp; simp [pwv_entries] at hp
  | (k, v) :: rest =>
      intro p w hp
      rw [wfl_entries] at hwf
      rw [df_entries] at hdf
      simp only [Bool.and_eq_true, decide_eq_true_eq] at hwf hdf
      obtain ⟨⟨hknotin, hwfv⟩, hwfrest⟩ := hwf
      obtain ⟨⟨hdfk, hdfv⟩, hdfrest⟩ := hdf
      rw [pwv_entries] at hp
      rcases List.mem_append.mp hp with hp1 | hp2
      · rcases List.mem_cons.mp hp1 with heq | hp1'
        · obtain ⟨hpe, hwe⟩ := Prod.mk.injEq .. ▸ heq
          refine ⟨k, [], ?_, ?_, ?_, ?_⟩
          · rw [hpe]
            simp [dotJoin]
          · simp
          · intro s hs
            rcases List.mem_singleton.mp hs with rfl
            exact hdfk
          · rw [hwe]
            simp [resolve_path, lookupKey]
        · obtain ⟨k₀', segs', e1, e2, e3⟩ :=
            pwv_resolve v (joinKey pre k) hwfv hdfv p w hp1'
          refine ⟨k, k₀' :: segs', ?_, ?_, ?_, ?_⟩
          · rw [e1]
            simp [dotJoin, List.foldl_cons]
          · simp
          · intro s hs
            rcases List.mem_cons.mp hs with rfl | hs'
            · exact hdfk
            · exact e2 s hs'
          · simp only [resolve_path, lookupKey, if_pos rfl]
            exact e3
      · obtain ⟨k₀, segs, e1, e2, e3, e4⟩ :=
          pwv_resolve_entries rest pre hwfrest hdfrest p w hp2
        have hne : k ≠ k₀ := fun e => hknotin (e ▸ e2)
        refine ⟨k₀, segs, e1, ?_, e3, ?_⟩
        · exact List.mem_cons_of_mem _ e2
        · rw [resolve_cons_ne k k₀ v rest segs hne]
          exact e4
termination_by structural entries

end

/-! ## Resolution: the source resolver versus the failure-distinguishing one -/

theorem gnv_aux_eq_resolve (keys : List String) (cur : JValue) :
    get_nested_value_aux cur keys = (resolve_path cur keys).getD JValue.null := by
  induction keys generalizing cur with
  | nil => cases cur <;> rfl
  | cons k ks ih =>
      cases cur with
      | obj entries =>
          cases h : lookupKey entries k with
          | some v => simp [get_nested_value_aux, resolve_path, h, ih v]
          | none => simp [get_nested_value_aux, resolve_path, h]
      | str s => rfl
      | num n => rfl
      | bool b => rfl
      | null => rfl

theorem is_none_gnv_iff (data : JValue) (p : String) :
    is_none (get_nested_value data p) = true ↔
      resolve_path data (split_dots p) = none ∨
      resolve_path data (split_dots p) = some JValue.null := by
  rw [get_nested_value, gnv_aux_eq_resolve]
  cases h : resolve_path data (split_dots p) with
  | none => simp [is_none]
  | some v => cases v <;> simp [is_none]

/-! ## Membership in the auditor's found and missing lists -/

theorem audit_missing_mem (keys : List String) (data : JValue) (p : String) :
    p ∈ (audit_keys keys data).2 ↔
      p ∈ keys ∧ is_none (get_nested_value data p) = true := by
  induction keys with
  | nil => simp [audit_keys]
  | cons key rest ih =>
      by_cases h : is_none (get_nested_value data key) = true
      · have e : (audit_keys (key :: rest) data).2 = key :: (audit_keys rest data).2 := by
          simp [audit_keys, h]
        rw [e]
        constructor
        · intro hp
          rcases List.mem_cons.mp hp with rfl | hp'
          · exact ⟨List.mem_cons_self _ _, h⟩
          · obtain ⟨h1, h2⟩ := ih.mp hp'
            exact ⟨List.mem_cons_of_mem _ h1, h2⟩
        · rintro ⟨hmem, hp⟩
          rcases List.mem_cons.mp hmem with rfl | h1
          · exact List.mem_cons_self _ _
          · exact List.mem_cons_of_mem _ (ih.mpr ⟨h1, hp⟩)
      · have e : (audit_keys (key :: rest) data).2 = (audit_keys rest data).2 := by
          simp [audit_keys, h]
        rw [e]
        constructor
        · intro hp
          obtain ⟨h1, h2⟩ := ih.mp hp
          exact ⟨List.mem_cons_of_mem _ h1, h2⟩
        · rintro ⟨hmem, hp⟩
          rcases List.mem_cons.mp hmem with rfl | h1
          · exact absurd hp h
          · exact ih.mpr ⟨h1, hp⟩

theorem audit_found_mem (keys : List String) (data : JValue) (p : String) :
    p ∈ (audit_keys keys data).1 ↔
      p ∈ keys ∧ is_none (get_nested_value data p) = false := by
  induction keys with
  | nil => simp [audit_keys]
  | cons key rest ih =>
      by_cases h : is_none (get_nested_value data key) = true
      · have e : (audit_keys (key :: rest) data).1 = (audit_keys rest data).1 := by
          simp [audit_keys, h]
        rw [e]
        constructor
        · intro hp
          obtain ⟨h1, h2⟩ := ih.mp hp
          exact ⟨List.mem_cons_of_mem _ h1, h2⟩
        · rintro ⟨hmem, hp⟩
          rcases List.mem_cons.mp hmem with rfl | h1
          · rw [h] at hp
            exact absurd hp (by simp)
          · exact ih.mpr ⟨h1, hp⟩
      · have hfalse : is_none (get_nested_value data key) = false :=
          Bool.not_eq_true _ ▸ eq_false_of_ne_true h
        have e : (audit_keys (key :: rest) data).1 = key :: (audit_keys rest data).1 := by
          simp [audit_keys, h]
        rw [e]
        constructor
        · intro hp
          rcases List.mem_cons.mp hp with rfl | hp'
          · exact ⟨List.mem_cons_self _ _, hfalse⟩
          · obtain ⟨h1, h2⟩ := ih.mp hp'
            exact ⟨List.mem_cons_of_mem _ h1, h2⟩
        · rintro ⟨hmem, hp⟩
          rcases List.mem_cons.mp hmem with rfl | h1
          · exact List.mem_cons_self _ _
          · exact List.mem_cons_of_mem _ (ih.mpr ⟨h1, hp⟩)

/-! ## The flattener walk and the value-keeping walk agree -/

mutual

theorem gak_eq_map_pwv (data : JValue) (pre : String) :
    get_all_keys data pre = (paths_with_values data pre).map Prod.fst := by
  match data with
  | .obj entries =>
      rw [get_all_keys, paths_with_values]
      exact gak_entries_eq_map entries pre
  | .str s => rfl
  | .num n => rfl
  | .bool b => rfl
  | .null => rfl
termination_by structural data

theorem gak_entries_eq_map (entries : List (String × JValue)) (pre : String) :
    gak_entries entries pre = (pwv_entries entries pre).map Prod.fst := by
  match entries with
  | [] => rfl
  | (k, v) :: rest =>
      rw [gak_entries, pwv_entries]
      simp only [List.map_append, List.map_cons]
      rw [gak_eq_map_pwv v (joinKey pre k), gak_entries_eq_map rest pre]
termination_by structural entries

end

/-! ## Duplicate detection as a scan over the flattened sequence -/

theorem dupScan_append (l₁ l₂ f : List String) :
    dupScan (l₁ ++ l₂) f =
      ((dupScan l₁ f).1 ++ (dupScan l₂ (dupScan l₁ f).2).1, (dupScan l₂ (dupScan l₁ f).2).2) := by
  induction l₁ generalizing f with
  | nil => simp [dupScan]
  | cons x xs ih =>
      by_cases hx : x ∈ f
      · simp [dupScan, hx, ih]
      · simp [dupScan, hx, ih]

mutual

theorem cdk_eq_dupScan (data : JValue) (pre : String) (f : List String) :
    check_duplicate_keys_aux data pre f = dupScan (get_all_keys data pre) f := by
  match data with
  | .obj entries =>
      rw [check_duplicate_keys_aux, get_all_keys]
      exact cdk_entries_eq_dupScan entries pre f
  | .str s => rfl
  | .num n => rfl
  | .bool b => rfl
  | .null => rfl
termination_by structural data

theorem cdk_entries_eq_dupScan (entries : List (String × JValue)) (pre : String) (f : List String) :
    cdk_entries entries pre f = dupScan (gak_entries entries pre) f := by
  match entries with
  | [] => rfl
  | (k, v) :: rest =>
      rw [cdk_entries, gak_entries]
      by_cases hk : joinKey pre k ∈ f <;>
        simp [hk, dupScan, List.append_eq, dupScan_append,
          cdk_eq_dupScan v (joinKey pre k), cdk_entries_eq_dupScan rest pre]
termination_by structural entries

end

theorem dupScan_fst_eq_dup_occurrences (l f g : List String)
    (h : ∀ a, a ∈ f ↔ a ∈ g) : (dupScan l f).1 = dup_occurrences l g := by
  induction l generalizing f g with
  | nil => rfl
  | cons x xs ih =>
      by_cases hx : x ∈ f
      · have hxg : x ∈ g := (h x).mp hx
        have h' : ∀ a, a ∈ f ↔ a ∈ x :: g := by
          intro a
          constructor
          · intro ha
            exact List.mem_cons_of_mem x ((h a).mp ha)
          · intro ha
            rcases List.mem_cons.mp ha with rfl | ha
            · exact hx
            · exact (h a).mpr ha
        simp [dupScan, dup_occurrences, hx, hxg, ih f (x :: g) h']
      · have hxg : x ∉ g := fun hc => hx ((h x).mpr hc)
        have h' : ∀ a, a ∈ x :: f ↔ a ∈ x :: g := by
          intro a
          simp only [List.mem_cons]
          constructor
          · rintro (rfl | ha)
            · exact Or.inl rfl
            · exact Or.inr ((h a).mp ha)
          · rintro (rfl | ha)
            · exact Or.inl rfl
            · exact Or.inr ((h a).mpr ha)
        simp [dupScan, dup_occurrences, hx, hxg, ih (x :: f) (x :: g) h']

theorem dupScan_fst_nil_of_nodup (l : List String) (f : List String)
    (hl : l.Nodup) (hf : ∀ x ∈ l, x ∉ f) : (dupScan l f).1 = [] := by
  induction l generalizing f with
  | nil => rfl
  | cons x xs ih =>
      have hx : x ∉ f := hf x (List.mem_cons_self x xs)
      have hxs : xs.Nodup := (List.nodup_cons.mp hl).2
      have hxxs : x ∉ xs := (List.nodup_cons.mp hl).1
      have hf' : ∀ y ∈ xs, y ∉ x :: f := by
        intro y hy
        simp only [List.mem_cons, not_or]
        exact ⟨fun h => hxxs (h ▸ hy), hf y (List.mem_cons_of_mem x hy)⟩
      simp [dupScan, hx, ih (x :: f) hxs hf']

/-! ## Empty-value detection as a filter over the value-keeping walk -/

mutual

theorem cev_eq_filterMap (data : JValue) (pre : String) :
    check_empty_values data pre = (paths_with_values data pre).filterMap emptyLeaf := by
  match data with
  | .obj entries =>
      rw [check_empty_values, paths_with_values]
      exact cev_entries_eq_filterMap entries pre
  | .str s => rfl
  | .num n => rfl
  | .bool b => rfl
  | .null => rfl
termination_by structural data

theorem cev_entries_eq_filterMap (entries : List (String × JValue)) (pre : String) :
    cev_entries entries pre = (pwv_entries entries pre).filterMap emptyLeaf := by
  match entries with
  | [] => rfl
  | (k, .obj es) :: rest =>
      have ih₁ := cev_eq_filterMap (.obj es) (joinKey pre k)
      have ih₂ := cev_entries_eq_filterMap rest pre
      simp [cev_entries, pwv_entries, List.filterMap_append, List.filterMap_cons,
        emptyLeaf, ih₁, ih₂]
  | (k, .str s) :: rest =>
      have ih₂ := cev_entries_eq_filterMap rest pre
      by_cases hs : strip_empty s <;>
        simp [cev_entries, pwv_entries, paths_with_values, List.filterMap_append,
          List.filterMap_cons, emptyLeaf, hs, ih₂]
  | (k, .num n) :: rest =>
      have ih₂ := cev_entries_eq_filterMap rest pre
      simp [cev_entries, pwv_entries, paths_with_values, List.filterMap_append,
        List.filterMap_cons, emptyLeaf, ih₂]
  | (k, .bool b) :: rest =>
      have ih₂ := cev_entries_eq_filterMap rest pre
      simp [cev_entries, pwv_entries, paths_with_values, List.filterMap_append,
        List.filterMap_cons, emptyLeaf, ih₂]
  | (k, .null) :: rest =>
      have ih₂ := cev_entries_eq_filterMap rest pre
      simp [cev_entries, pwv_entries, paths_with_values, List.filterMap_append,
        List.filterMap_cons, emptyLeaf, ih₂]
termination_by structural entries

end


/-! ## Claim theorems -/

/-- Claim C9: the flattener emits, for every key at every depth, the path
`parent_path ++ "." ++ key` — or just `key` when the running path is the
root's empty one — recursing into a value exactly when it is itself a
dictionary, while a leaf value (an empty string included) contributes its
own key path but nothing below it. -/
theorem C9_flattener_characterization (entries : List (String × JValue)) (pre k key : String)
    (hpre : pre ≠ "") (v : JValue) (hleaf : ∀ es, v ≠ JValue.obj es) :
    get_all_keys (.obj entries) pre =
      entries.flatMap (fun e => joinKey pre e.1 :: get_all_keys e.2 (joinKey pre e.1)) ∧
    joinKey "" key = key ∧
    joinKey pre k = pre ++ "." ++ k ∧
    get_all_keys v pre = [] := by
  refine ⟨?_, by simp [joinKey], by simp [joinKey, hpre], ?_⟩
  · rw [get_all_keys]
    induction entries with
    | nil => rfl
    | cons e rest ih =>
        obtain ⟨k', v'⟩ := e
        rw [gak_entries, List.flatMap_cons, ih]
  · cases v with
    | obj es => exact absurd rfl (hleaf es)
    | str s => rfl
    | num n => rfl
    | bool b => rfl
    | null => rfl

/-- Witness for C9 at a concrete entry list, non-root running path and
non-dictionary leaf. -/
theorem C9_flattener_characterization_witness :
    ("p" : String) ≠ "" ∧
    (get_all_keys (.obj [("a", .obj [("b", .str "")]), ("c", .num 3)]) "p" =
      [("a", JValue.obj [("b", JValue.str "")]), ("c", JValue.num 3)].flatMap
        (fun e => joinKey "p" e.1 :: get_all_keys e.2 (joinKey "p" e.1)) ∧
     joinKey "" "k2" = "k2" ∧
     joinKey "p" "k1" = "p" ++ "." ++ "k1" ∧
     get_all_keys (JValue.str "x") "p" = []) :=
  ⟨by decide,
    C9_flattener_characterization [("a", .obj [("b", .str "")]), ("c", .num 3)]
      "p" "k1" "k2" (by decide) (JValue.str "x") (fun es h => JValue.noConfusion h)⟩

/-- Claim C10: the duplicate finding list of `check_duplicate_keys` is
exactly the sub-sequence of the flattened key-path sequence
`get_all_keys` consisting of the occurrences whose path already appeared
earlier in that sequence. -/
theorem C10_duplicates_refine_flattener (d : JValue) :
    check_duplicate_keys d = dup_occurrences (get_all_keys d "") [] := by
  rw [check_duplicate_keys, cdk_eq_dupScan]
  exact dupScan_fst_eq_dup_occurrences (get_all_keys d "") [] [] (fun a => Iff.rfl)

/-- Claim C2 is false as stated: this catalog repeats no key at any single
nesting level, yet the detector reports `a.b`, because the dotted path of
the node reached by `a` then `b` collides with the top-level key `"a.b"`. -/
theorem C2_counterexample :
    wf_levels (.obj [("a", .obj [("b", .str "x")]), ("a.b", .str "y")]) = true ∧
    check_duplicate_keys (.obj [("a", .obj [("b", .str "x")]), ("a.b", .str "y")]) = ["a.b"] ∧
    check_duplicate_keys (.obj [("a", .obj [("b", .str "x")]), ("a.b", .str "y")]) ≠ [] :=
  ⟨by decide, by decide, by decide⟩

/-- Claim C2 (amended): if the walk meets no dotted key path twice — the
flattened sequence has no repetition, which structurally distinct per-level
keys alone do not guarantee when keys contain dots — the duplicate
detector returns an empty finding list; and each occurrence of an already
seen path is reported. -/
theorem C2_amended_no_repeated_path (d : JValue) (h : (get_all_keys d "").Nodup) :
    check_duplicate_keys d = [] := by
  rw [check_duplicate_keys, cdk_eq_dupScan]
  exact dupScan_fst_nil_of_nodup _ [] h (fun x _ => List.not_mem_nil x)

/-- Witness for C2 (amended) on a concrete repetition-free catalog. -/
theorem C2_amended_no_repeated_path_witness :
    (get_all_keys (.obj [("a", .obj [("b", .str "x")]), ("c", .str "y")]) "").Nodup ∧
    check_duplicate_keys (.obj [("a", .obj [("b", .str "x")]), ("c", .str "y")]) = [] :=
  ⟨by decide, C2_amended_no_repeated_path _ (by decide)⟩

/-- Claim C7: the empty-value detector emits exactly the key paths of
traversal nodes whose value is a whitespace-only string (the empty string
included); a node with a non-string value never produces a finding. -/
theorem C7_empty_values_iff (data : JValue) (pre : String) :
    check_empty_values data pre = (paths_with_values data pre).filterMap emptyLeaf ∧
    ∀ p, p ∈ check_empty_values data pre ↔
      ∃ s, (p, JValue.str s) ∈ paths_with_values data pre ∧ strip_empty s = true := by
  refine ⟨cev_eq_filterMap data pre, ?_⟩
  intro p
  rw [cev_eq_filterMap data pre, List.mem_filterMap]
  constructor
  · rintro ⟨⟨q, w⟩, hmem, him⟩
    cases w with
    | str s =>
        by_cases hs : strip_empty s
        · simp only [emptyLeaf, hs, if_pos, Option.some.injEq] at him
          exact ⟨s, him ▸ hmem, hs⟩
        · simp [emptyLeaf, hs] at him
    | obj es => simp [emptyLeaf] at him
    | num n => simp [emptyLeaf] at him
    | bool b => simp [emptyLeaf] at him
    | null => simp [emptyLeaf] at him
  · rintro ⟨s, hmem, hs⟩
    exact ⟨(p, .str s), hmem, by simp [emptyLeaf, hs]⟩

/-- A conditional singleton is empty exactly when its condition fails. -/
theorem ite_singleton_nil {c : Prop} [Decidable c] (m : String) :
    ((if c then [m] else []) = ([] : List String)) ↔ ¬c := by
  by_cases h : c <;> simp [h]

/-- The `issues` list of the verdict is empty exactly when all six
collected finding lists and locale-exclusive key sets are empty. -/
theorem issues_nil_iff (r : Report) :
    issues r = [] ↔
      r.de_duplicates = [] ∧ r.en_duplicates = [] ∧ r.only_de = ∅ ∧ r.only_en = ∅ ∧
      r.de_empty = [] ∧ r.en_empty = [] := by
  rw [issues]
  simp only [List.append_eq_nil, ite_singleton_nil, not_not, ne_eq]
  tauto

/-- Claim C5: the three parts the structural diff computes — common keys,
only-German keys, only-English keys — are pairwise disjoint and together
cover exactly the union of the two flattened key sets. -/
theorem C5_partition_law (de en : JValue) :
    Disjoint (run_checks de en).common_keys (run_checks de en).only_de ∧
    Disjoint (run_checks de en).common_keys (run_checks de en).only_en ∧
    Disjoint (run_checks de en).only_de (run_checks de en).only_en ∧
    (run_checks de en).common_keys ∪ (run_checks de en).only_de ∪ (run_checks de en).only_en =
      (get_all_keys de "").toFinset ∪ (get_all_keys en "").toFinset := by
  have hc : (run_checks de en).common_keys =
      (get_all_keys de "").toFinset ∩ (get_all_keys en "").toFinset := rfl
  have hd : (run_checks de en).only_de =
      (get_all_keys de "").toFinset \ (get_all_keys en "").toFinset := rfl
  have he : (run_checks de en).only_en =
      (get_all_keys en "").toFinset \ (get_all_keys de "").toFinset := rfl
  rw [hc, hd, he]
  refine ⟨?_, ?_, ?_, ?_⟩
  · exact Finset.disjoint_left.mpr
      (fun x hx hx2 => (Finset.mem_sdiff.mp hx2).2 (Finset.mem_inter.mp hx).2)
  · exact Finset.disjoint_left.mpr
      (fun x hx hx2 => (Finset.mem_sdiff.mp hx2).2 (Finset.mem_inter.mp hx).1)
  · exact Finset.disjoint_left.mpr
      (fun x hx hx2 => (Finset.mem_sdiff.mp hx2).2 (Finset.mem_sdiff.mp hx).1)
  · ext x
    simp only [Finset.mem_union, Finset.mem_inter, Finset.mem_sdiff]
    tauto

/-- Claim C6: once both catalogs are loaded, the aggregate verdict is
"pass" exactly when every collected finding list and every
locale-exclusive key set is empty; the verdict is a function of the
collected `Report` alone. -/
theorem C6_verdict_iff (de en : JValue) :
    verdict_pass (run_checks de en) = true ↔
      ((run_checks de en).de_duplicates = [] ∧ (run_checks de en).en_duplicates = [] ∧
       (run_checks de en).only_de = ∅ ∧ (run_checks de en).only_en = ∅ ∧
       (run_checks de en).de_empty = [] ∧ (run_checks de en).en_empty = []) := by
  rw [verdict_pass, List.isEmpty_iff]
  exact issues_nil_iff (run_checks de en)

/-- Claim C4 (amended): when a catalog source fails to load, the per-key
audit is skipped and the check returns an empty found list together with
the entire required-key list as missing. -/
theorem C4_amended_failed_load (msg : String) :
    check_translation_file (.error msg) = ([], required_keys) := rfl

/-- Claim C4 is false as stated: after a failed load the missing-key
finding list is not empty — every required key, the first one shown here,
is reported as missing for the catalog whose load failed. -/
theorem C4_counterexample :
    (check_translation_file (.error "kaputt")).2 ≠ [] ∧
    "import.options.merge_strategy_description" ∈ (check_translation_file (.error "kaputt")).2 :=
  ⟨by decide, by decide⟩

/-- Claim C8: if reading or parsing either catalog fails, the loader
yields absent results for both and `main` returns before any check runs. -/
theorem C8_failed_load_early_exit (de en : Except String JValue)
    (h : (∃ m, de = .error m) ∨ (∃ m, en = .error m)) :
    load_translations de en = (none, none) ∧ main_result de en = none := by
  rcases h with ⟨m, rfl⟩ | ⟨m, rfl⟩
  · exact ⟨rfl, rfl⟩
  · cases de with
    | error m2 => exact ⟨rfl, rfl⟩
    | ok d => exact ⟨rfl, rfl⟩

/-- Witness for C8 at a concrete failed German load. -/
theorem C8_failed_load_early_exit_witness :
    ((∃ m, (Except.error "no such file" : Except String JValue) = .error m) ∨
      (∃ m, (Except.ok (JValue.obj []) : Except String JValue) = .error m)) ∧
    load_translations (.error "no such file") (.ok (JValue.obj [])) = (none, none) ∧
    main_result (.error "no such file") (.ok (JValue.obj [])) = none :=
  ⟨Or.inl ⟨"no such file", rfl⟩,
    C8_failed_load_early_exit (.error "no such file") (.ok (JValue.obj []))
      (Or.inl ⟨"no such file", rfl⟩)⟩

/-- The auditor's `value is not None` test succeeds exactly when the
failure-distinguishing resolution yields a value other than `null`. -/
theorem is_none_gnv_false_iff (data : JValue) (p : String) :
    is_none (get_nested_value data p) = false ↔
      ∃ v, resolve_path data (split_dots p) = some v ∧ v ≠ JValue.null := by
  rw [get_nested_value, gnv_aux_eq_resolve]
  cases h : resolve_path data (split_dots p) with
  | none => simp [is_none]
  | some v => cases v <;> simp [is_none]

/-- Claim C3 (amended): the auditor records a required path as missing
exactly when level-by-level resolution fails — some next segment absent or
a non-dictionary node reached — or the successfully resolved value is
`null` (indistinguishable from failure via Python's `None`); every other
path is recorded as found, and the value `get_nested_value` surfaces for
it is the resolved leaf value. -/
theorem C3_amended_audit_iff (data : JValue) (p : String) :
    (p ∈ (check_translation_file (.ok data)).2 ↔
      p ∈ required_keys ∧
        (resolve_path data (split_dots p) = none ∨
         resolve_path data (split_dots p) = some JValue.null)) ∧
    (p ∈ (check_translation_file (.ok data)).1 ↔
      p ∈ required_keys ∧
        ∃ v, resolve_path data (split_dots p) = some v ∧ v ≠ JValue.null) ∧
    (∀ v, resolve_path data (split_dots p) = some v → get_nested_value data p = v) := by
  refine ⟨?_, ?_, ?_⟩
  · rw [show (check_translation_file (.ok data)).2 = (audit_keys required_keys data).2 from rfl]
    rw [audit_missing_mem, is_none_gnv_iff]
  · rw [show (check_translation_file (.ok data)).1 = (audit_keys required_keys data).1 from rfl]
    rw [audit_found_mem, is_none_gnv_false_iff]
  · intro v hv
    rw [get_nested_value, gnv_aux_eq_resolve, hv]
    rfl

/-- Witness for C3 (amended) on a concrete catalog in which the first
required key resolves to a non-null string. -/
theorem C3_amended_audit_iff_witness :
    resolve_path
        (JValue.obj [("import", JValue.obj [("options",
          JValue.obj [("merge_strategy_description", JValue.str "Beschreibung")])])])
        (split_dots "import.options.merge_strategy_description") =
      some (JValue.str "Beschreibung") ∧
    get_nested_value
        (JValue.obj [("import", JValue.obj [("options",
          JValue.obj [("merge_strategy_description", JValue.str "Beschreibung")])])])
        "import.options.merge_strategy_description" = JValue.str "Beschreibung" :=
  ⟨rfl,
    (C3_amended_audit_iff
        (JValue.obj [("import", JValue.obj [("options",
          JValue.obj [("merge_strategy_description", JValue.str "Beschreibung")])])])
        "import.options.merge_strategy_description").2.2
      (JValue.str "Beschreibung") rfl⟩

/-- Claim C3 is false as stated: in this catalog the required path
`import.options.merge_strategy_description` resolves successfully — every
segment present, every intermediate node a dictionary — to the leaf value
`null`, yet the auditor records the path as missing. -/
theorem C3_counterexample :
    resolve_path
        (JValue.obj [("import", JValue.obj [("options",
          JValue.obj [("merge_strategy_description", JValue.null)])])])
        (split_dots "import.options.merge_strategy_description") = some JValue.null ∧
    "import.options.merge_strategy_description" ∈
      (check_translation_file (.ok (JValue.obj [("import", JValue.obj [("options",
        JValue.obj [("merge_strategy_description", JValue.null)])])]))).2 :=
  ⟨rfl, by decide⟩

/-- Claim C1 (amended): on a catalog with distinct keys at every level (as
any parsed dictionary has), no dot inside any key, and no empty key at the
root level, every dotted path the flattener emits resolves via
`get_nested_value` to exactly the value of the node it was emitted for —
in particular resolution never fails for an emitted path. -/
theorem C1_amended_flatten_resolve (t : JValue)
    (hwf : wf_levels t = true) (hdf : dot_free t = true)
    (hroot : root_keys_nonempty t = true) :
    get_all_keys t "" = (paths_with_values t "").map Prod.fst ∧
    ∀ p v, (p, v) ∈ paths_with_values t "" → get_nested_value t p = v := by
  refine ⟨gak_eq_map_pwv t "", ?_⟩
  intro p v hp
  cases t with
  | obj entries =>
      rw [paths_with_values] at hp
      rw [wf_levels] at hwf
      rw [dot_free] at hdf
      rw [root_keys_nonempty] at hroot
      obtain ⟨k₀, segs, e1, emem, e2, e3⟩ := pwv_resolve_entries entries "" hwf hdf p v hp
      have hk₀ : k₀ ≠ "" := by
        intro e
        exact (of_decide_eq_true hroot) (e ▸ emem)
      have hsplit : split_dots p = k₀ :: segs := by
        have e1b : p = dotJoin k₀ segs := by
          rw [e1]
          simp [dotJoin, List.foldl_cons, joinKey]
        rw [e1b]
        exact split_dots_dotJoin k₀ segs hk₀ (e2 k₀ (List.mem_cons_self _ _))
          (fun s hs => e2 s (List.mem_cons_of_mem _ hs))
      rw [get_nested_value, hsplit, gnv_aux_eq_resolve, e3]
      rfl
  | str s => simp [paths_with_values] at hp
  | num n => simp [paths_with_values] at hp
  | bool b => simp [paths_with_values] at hp
  | null => simp [paths_with_values] at hp

/-- Witness for C1 (amended) on a concrete well-behaved catalog: the
emitted nested path `a.b` resolves back to the node value `"x"`. -/
theorem C1_amended_flatten_resolve_witness :
    wf_levels (.obj [("a", .obj [("b", .str "x")]), ("c", JValue.null)]) = true ∧
    dot_free (.obj [("a", .obj [("b", .str "x")]), ("c", JValue.null)]) = true ∧
    root_keys_nonempty (.obj [("a", .obj [("b", .str "x")]), ("c", JValue.null)]) = true ∧
    get_nested_value (.obj [("a", .obj [("b", .str "x")]), ("c", JValue.null)]) "a.b" =
      JValue.str "x" :=
  ⟨by decide, by decide, by decide,
    (C1_amended_flatten_resolve (.obj [("a", .obj [("b", .str "x")]), ("c", JValue.null)])
        (by decide) (by decide) (by decide)).2 "a.b" (JValue.str "x")
      (by
        have hlist : paths_with_values
            (.obj [("a", .obj [("b", .str "x")]), ("c", JValue.null)]) "" =
            [("a", JValue.obj [("b", JValue.str "x")]), ("a.b", JValue.str "x"),
              ("c", JValue.null)] := rfl
        rw [hlist]
        exact List.mem_cons_of_mem _ (List.mem_cons_self _ _))⟩

/-- Claim C1 is false as stated: a key containing a dot (`"a.b"`) and an
empty root key both make the flattener emit a path that `get_nested_value`
cannot resolve — it returns the `None`/`null` failure value instead of the
node's actual value. -/
theorem C1_counterexample :
    (get_all_keys (.obj [("a.b", .str "x")]) "" = ["a.b"] ∧
     paths_with_values (.obj [("a.b", .str "x")]) "" = [("a.b", JValue.str "x")] ∧
     get_nested_value (.obj [("a.b", .str "x")]) "a.b" = JValue.null ∧
     JValue.null ≠ JValue.str "x") ∧
    (get_all_keys (.obj [("", .obj [("b", .str "y")])]) "" = ["", "b"] ∧
     get_nested_value (.obj [("", .obj [("b", .str "y")])]) "b" = JValue.null ∧
     JValue.null ≠ JValue.str "y") :=
  ⟨⟨by decide, rfl, rfl, fun h => JValue.noConfusion h⟩,
   ⟨by decide, rfl, fun h => JValue.noConfusion h⟩⟩
